import Mathlib

/-!
# Verification of the Composite/Component tree (Linker.cpp)

A shallow embedding of the Composite-pattern tree from `Linker.cpp`.
Objects live in a heap addressed by natural-number ids; each node carries
the `Component` state (`parent_`, and for composites `children_`).  The
variant tag (`IsComposite`) is fixed at creation, matching the C++ class
of the object, so it is a static field of the state.
-/

namespace Linker

/-- The heap of components.  `nodes` lists the allocated ids, `kind x`
is the dynamic type of node `x` (`true` for `Composite`, `false` for
`Leaf`), `parent x` embeds `Component::parent_`, and `children x` embeds
`Composite::children_` (meaningful only for composites; leaves have an
empty list). -/
structure SState where
  nodes    : List Nat
  kind     : Nat → Bool
  parent   : Nat → Option Nat
  children : Nat → List Nat

/-- `Component::SetParent(Component* parent) { this->parent_ = parent; }` -/
def SetParent (s : SState) (x : Nat) (p : Option Nat) : SState :=
  { s with parent := fun y => if y = x then p else s.parent y }

/-- `Component::GetParent() const { return this->parent_; }` -/
def GetParent (s : SState) (x : Nat) : Option Nat :=
  s.parent x

/-- `Component::IsComposite` (overridden to `true` in `Composite`). -/
def IsComposite (s : SState) (x : Nat) : Bool :=
  s.kind x

/-- `Add`: on a `Composite` receiver, `Composite::Add` runs
`children_.push_back(component); component->SetParent(this);`.
On a `Leaf` receiver the inherited `Component::Add` has an empty body. -/
def Add (s : SState) (p x : Nat) : SState :=
  if s.kind p then
    SetParent
      { s with children := fun q => if q = p then s.children p ++ [x] else s.children q }
      x (some p)
  else s

/-- `Remove`: on a `Composite` receiver, `Composite::Remove` runs
`children_.remove(component); component->SetParent(nullptr);` —
`std::list::remove` erases every element comparing equal to the pointer.
On a `Leaf` receiver the inherited `Component::Remove` has an empty body. -/
def Remove (s : SState) (p x : Nat) : SState :=
  if s.kind p then
    SetParent
      { s with children := fun q => if q = p then (s.children p).filter (fun c => c != x) else s.children q }
      x none
  else s

/-- The loop body of `Composite::Operation`: walk the children in order,
appending each child's result, with `"+"` appended after a child exactly
when the child pointer differs from `children_.back()`.  `op` is the
recursive call on a child; `back` is `children_.back()` (as an `Option`,
since `back()` is only ever evaluated when the loop runs, i.e. on a
non-empty list). -/
def renderChildren (op : Nat → Option String) (back : Option Nat) : List Nat → Option String
  | [] => some ""
  | c :: cs => do
      let r ← op c
      let rest ← renderChildren op back cs
      pure ((if some c = back then r else r ++ "+") ++ rest)

/-- `Operation` (= `describe()`), with explicit fuel bounding the
recursion depth.  `Leaf::Operation` returns `"Leaf"`;
`Composite::Operation` renders the children and wraps the result in
`"Branch(" ... ")"`.  `none` means the fuel ran out, i.e. the C++
recursion would still be running at that depth. -/
def Operation : Nat → SState → Nat → Option String
  | 0, _, _ => none
  | n + 1, s, x =>
    if s.kind x then
      match renderChildren (Operation n s) (s.children x).getLast? (s.children x) with
      | none => none
      | some inner => some ("Branch(" ++ inner ++ ")")
    else some "Leaf"

/-- Spec-side join: the children's results "joined by a fixed separator"
`"+"` between every adjacent pair. -/
def joinPlus : List String → String
  | [] => ""
  | [r] => r
  | r :: rs => r ++ "+" ++ joinPlus rs

/-- The results of `describe()` on each element of a list of nodes,
in order (`none` if any recursive call runs out of fuel). -/
def describeAll (op : Nat → Option String) : List Nat → Option (List String)
  | [] => some []
  | c :: cs => do
      let r ← op c
      let rs ← describeAll op cs
      pure (r :: rs)

/-- The mutating API calls a client can issue. -/
inductive Op where
  | add  (p x : Nat)
  | rem  (p x : Nat)
  | setp (x : Nat) (v : Option Nat)
deriving DecidableEq

/-- Run one API call against the heap. -/
def applyOp (s : SState) : Op → SState
  | .add p x => Add s p x
  | .rem p x => Remove s p x
  | .setp x v => SetParent s x v

/-- Run a sequence of API calls against the heap. -/
def applyOps (s : SState) (ops : List Op) : SState :=
  ops.foldl applyOp s

/-- A freshly constructed heap: `Component` has no constructor and
`parent_` has no initializer, so a new node's `parent_` holds whatever
indeterminate value (`junk`) the allocated memory contained; the child
lists start empty (`std::list` default-constructs empty). -/
def freshState (nodes : List Nat) (kinds : Nat → Bool) (junk : Nat → Option Nat) : SState :=
  { nodes := nodes, kind := kinds, parent := junk, children := fun _ => [] }

/-- The spec's parent/child invariant: every node sitting in some
composite's child sequence has its parent reference pointing at that
composite, and every node sitting in no child sequence has parent
reference `none`. -/
def ParentInv (s : SState) : Prop :=
  (∀ p ∈ s.nodes, ∀ x ∈ s.children p, s.parent x = some p) ∧
  (∀ x ∈ s.nodes, (∀ p ∈ s.nodes, x ∉ s.children p) → s.parent x = none)

/-! ## General lemmas about the rendering loop and fuel -/

theorem renderChildren_congr_some (op op' : Nat → Option String)
    (h : ∀ c r, op c = some r → op' c = some r) (back : Option Nat) :
    ∀ (cs : List Nat) (t : String),
      renderChildren op back cs = some t → renderChildren op' back cs = some t := by
  intro cs
  induction cs with
  | nil => exact fun t ht => ht
  | cons c cs ih =>
    intro t ht
    rw [renderChildren] at ht ⊢
    simp only [Option.bind_eq_bind, Option.pure_def, Option.bind_eq_some] at ht ⊢
    obtain ⟨r, hr, rest, hrest, heq⟩ := ht
    exact ⟨r, h c r hr, rest, ih rest hrest, heq⟩

theorem Operation_mono (s : SState) :
    ∀ (n x : Nat) (r : String), Operation n s x = some r → Operation (n + 1) s x = some r := by
  intro n
  induction n with
  | zero => intro x r h; simp [Operation] at h
  | succ n ih =>
    intro x r h
    rw [Operation] at h ⊢
    by_cases hk : s.kind x = true
    · simp only [hk, if_true] at h ⊢
      cases hr : renderChildren (Operation n s) (s.children x).getLast? (s.children x) with
      | none => rw [hr] at h; cases h
      | some inner =>
        rw [hr] at h
        rw [renderChildren_congr_some (Operation n s) (Operation (n + 1) s)
              (fun c r' h' => ih c r' h') _ _ _ hr]
        exact h
    · simp only [hk, if_false] at h ⊢
      exact h

theorem Operation_mono_le (s : SState) {m n : Nat} (hmn : m ≤ n) :
    ∀ (x : Nat) (r : String), Operation m s x = some r → Operation n s x = some r := by
  induction hmn with
  | refl => exact fun x r h => h
  | step _ ih => exact fun x r h => Operation_mono s _ x r (ih x r h)

theorem renderChildren_isSome (op : Nat → Option String) (back : Option Nat)
    (cs : List Nat) (h : ∀ c ∈ cs, (op c).isSome) :
    (renderChildren op back cs).isSome := by
  induction cs with
  | nil => simp [renderChildren]
  | cons c cs ih =>
    rw [renderChildren]
    obtain ⟨r, hr⟩ := Option.isSome_iff_exists.mp (h c (List.mem_cons_self c cs))
    obtain ⟨rest, hrest⟩ :=
      Option.isSome_iff_exists.mp (ih (fun d hd => h d (List.mem_cons_of_mem c hd)))
    simp [hr, hrest]

theorem renderChildren_joinPlus (op : Nat → Option String) :
    ∀ (cs : List Nat) (parts : List String),
      describeAll op cs = some parts →
      (∀ c ∈ cs.dropLast, some c ≠ cs.getLast?) →
      renderChildren op cs.getLast? cs = some (joinPlus parts) := by
  intro cs
  induction cs with
  | nil =>
    intro parts h _
    simp only [describeAll, Option.some.injEq] at h
    subst h
    simp [renderChildren, joinPlus]
  | cons c cs ih =>
    intro parts h hlast
    rw [describeAll] at h
    simp only [Option.bind_eq_bind, Option.pure_def, Option.bind_eq_some,
      Option.some.injEq] at h
    obtain ⟨r, hr, rs, hrs, hparts⟩ := h
    subst hparts
    cases cs with
    | nil =>
      simp only [describeAll, Option.some.injEq] at hrs
      subst hrs
      rw [renderChildren, renderChildren]
      simp [hr, joinPlus, String.append_empty]
    | cons d ds =>
      have hback : (c :: d :: ds).getLast? = (d :: ds).getLast? :=
        List.getLast?_cons_cons
      have hcne : some c ≠ (d :: ds).getLast? := by
        rw [← hback]
        exact hlast c (by rw [List.dropLast_cons₂]; exact List.mem_cons_self c _)
      have htail : ∀ e ∈ (d :: ds).dropLast, some e ≠ (d :: ds).getLast? := by
        intro e he
        rw [← hback]
        exact hlast e (by rw [List.dropLast_cons₂]; exact List.mem_cons_of_mem c he)
      have hrend := ih rs hrs htail
      obtain ⟨r', rs', hrs'⟩ : ∃ r' rs', rs = r' :: rs' := by
        rw [describeAll] at hrs
        simp only [Option.bind_eq_bind, Option.pure_def, Option.bind_eq_some,
          Option.some.injEq] at hrs
        obtain ⟨a, _, b, _, hab⟩ := hrs
        exact ⟨a, b, hab.symm⟩
      rw [renderChildren, hback, hr]
      simp only [Option.bind_eq_bind, Option.pure_def, Option.some_bind]
      rw [hrend]
      simp only [Option.some_bind, if_neg hcne, Option.some.injEq]
      subst hrs'
      show (r ++ "+") ++ joinPlus (r' :: rs') = joinPlus (r :: r' :: rs')
      rfl

/-! ## Concrete heaps used as test inputs -/

/-- A composite (id 0) holding the same leaf (id 1) twice. -/
def dupState : SState :=
  { nodes := [0, 1],
    kind := fun n => n == 0,
    parent := fun _ => none,
    children := fun n => if n == 0 then [1, 1] else [] }

/-- A composite (id 0) holding two distinct leaves (ids 1 and 2). -/
def pairState : SState :=
  { nodes := [0, 1, 2],
    kind := fun n => n == 0,
    parent := fun _ => none,
    children := fun n => if n == 0 then [1, 2] else [] }

/-- An empty composite (id 0). -/
def emptyComposite : SState :=
  freshState [0] (fun _ => true) (fun _ => none)

/-- The tree assembled by `main`: `tree` (id 1) holds `branch1` (id 2)
and `branch2` (id 3); `branch1` holds `leaf_1`, `leaf_2` (ids 4, 5) and
`branch2` holds `leaf_3` (id 6) — linked by the same `Add` calls, in the
same order, as `main`. -/
def treeState : SState :=
  applyOps
    (freshState [1, 2, 3, 4, 5, 6] (fun n => n == 1 || n == 2 || n == 3) (fun _ => none))
    [Op.add 2 4, Op.add 2 5, Op.add 3 6, Op.add 1 2, Op.add 1 3]

/-! ## C1: Composite.describe joins the children's results with "+" -/

/-- C1 (counterexample): the claim fails when the last child also occurs
earlier in the sequence.  In `dupState` the composite 0 holds the leaf 1
twice; each child's `describe()` is `"Leaf"`, yet `describe()` on the
composite yields `"Branch(LeafLeaf)"`, not the "+"-joined
`"Branch(Leaf+Leaf)"` — the loop in `Composite::Operation` skips the
separator after any child pointer equal to `children_.back()`, so the
first occurrence of the duplicated last child loses its separator. -/
theorem C1_join_counterexample :
    dupState.kind 0 = true ∧
    dupState.children 0 = [1, 1] ∧
    describeAll (Operation 2 dupState) (dupState.children 0) = some ["Leaf", "Leaf"] ∧
    Operation 3 dupState 0 = some "Branch(LeafLeaf)" ∧
    Operation 3 dupState 0 ≠ some ("Branch(" ++ joinPlus ["Leaf", "Leaf"] ++ ")") := by
  refine ⟨rfl, rfl, rfl, rfl, ?_⟩
  decide

/-- C1 (amended): for every composite node and child sequence in which
the last child does not also occur at an earlier position (duplicates
among the other children are fine), `describe()` returns the
concatenation of the children's `describe()` results in insertion order,
joined by `"+"` between every adjacent pair, wrapped in
`"Branch("` ... `")"`. -/
theorem C1_join_amended (s : SState) (x n : Nat) (parts : List String)
    (hk : s.kind x = true)
    (hall : describeAll (Operation n s) (s.children x) = some parts)
    (hlast : ∀ c ∈ (s.children x).dropLast, some c ≠ (s.children x).getLast?) :
    Operation (n + 1) s x = some ("Branch(" ++ joinPlus parts ++ ")") := by
  rw [Operation]
  simp only [hk, if_true]
  rw [renderChildren_joinPlus (Operation n s) _ parts hall hlast]

/-- C1 (witness): the amended theorem applied to the composite of
`pairState` with the two distinct leaves 1 and 2. -/
theorem C1_join_witness :
    Operation 2 pairState 0 = some ("Branch(" ++ joinPlus ["Leaf", "Leaf"] ++ ")") :=
  C1_join_amended pairState 0 1 ["Leaf", "Leaf"] rfl rfl (by decide)

/-! ## C2: the nested example tree describes as expected -/

/-- C2: `describe()` on the root of the tree
`root -> [branchA -> [leaf1, leaf2], branchB -> [leaf3]]` (assembled
exactly as in `main`) returns
`"Branch(Branch(Leaf+Leaf)+Branch(Leaf))"` at every recursion budget
that covers the tree's depth of 3. -/
theorem C2_nested_tree :
    ∀ n : Nat, Operation (n + 3) treeState 1 = some "Branch(Branch(Leaf+Leaf)+Branch(Leaf))" := by
  intro n
  have h3 : Operation 3 treeState 1 = some "Branch(Branch(Leaf+Leaf)+Branch(Leaf))" := by
    decide
  exact Operation_mono_le treeState (by omega) 1 _ h3

/-! ## C10: an empty composite describes as "Branch()" -/

/-- C10: `describe()` on a composite with an empty child sequence
returns exactly `"Branch()"` — the loop body never runs (so
`children_.back()` is never evaluated) and the result is the bare
delimiter pair. -/
theorem C10_empty_branch (s : SState) (x n : Nat)
    (hk : s.kind x = true) (hc : s.children x = []) :
    Operation (n + 1) s x = some "Branch()" := by
  have h : renderChildren (Operation n s) ([] : List Nat).getLast? [] = some "" := rfl
  rw [Operation, hc]
  simp only [hk, if_true, h]
  rfl

/-- C10 (witness): the empty composite of `emptyComposite`. -/
theorem C10_empty_branch_witness :
    Operation 1 emptyComposite 0 = some "Branch()" :=
  C10_empty_branch emptyComposite 0 0 rfl rfl

/-! ## C3: Composite.remove and duplicate children -/

/-- C3 (counterexample): the claim says `remove` deletes only the first
matching entry, so removing leaf 1 from `dupState` (children `[1, 1]`)
would have to leave `[1]`.  `Composite::Remove` calls
`std::list::remove`, which erases every matching element: the result is
`[]`. -/
theorem C3_remove_counterexample :
    dupState.children 0 = [1, 1] ∧
    (Remove dupState 0 1).children 0 = [] ∧
    (Remove dupState 0 1).children 0 ≠ [1] := by
  refine ⟨rfl, rfl, ?_⟩
  decide

/-- C3 (amended): on a composite receiver, `remove(child)` deletes every
entry identical to `child` from the child sequence (not only the first),
keeps all other entries in their relative order (the new sequence is a
sublist of the old and the multiplicity of every other node is
unchanged), and sets `child`'s parent reference to none. -/
theorem C3_remove_amended (s : SState) (p x : Nat) (hk : s.kind p = true) :
    x ∉ (Remove s p x).children p ∧
    (∀ y, y ≠ x → ((Remove s p x).children p).count y = (s.children p).count y) ∧
    ((Remove s p x).children p).Sublist (s.children p) ∧
    GetParent (Remove s p x) x = none := by
  have hch : (Remove s p x).children p = (s.children p).filter (fun c => c != x) := by
    simp [Remove, SetParent, hk]
  have hpar : GetParent (Remove s p x) x = none := by
    simp [GetParent, Remove, SetParent, hk]
  refine ⟨?_, ?_, ?_, hpar⟩
  · rw [hch]
    intro hmem
    have hx := (List.mem_filter.mp hmem).2
    simp at hx
  · intro y hy
    rw [hch]
    exact List.count_filter (by simpa using hy)
  · rw [hch]
    exact List.filter_sublist _

/-- C3 (witness): the amended theorem at `dupState`, removing the
duplicated leaf 1 from composite 0. -/
theorem C3_remove_witness :
    1 ∉ (Remove dupState 0 1).children 0 ∧
    ((Remove dupState 0 1).children 0).count 0 = (dupState.children 0).count 0 ∧
    ((Remove dupState 0 1).children 0).Sublist (dupState.children 0) ∧
    GetParent (Remove dupState 0 1) 1 = none :=
  ⟨(C3_remove_amended dupState 0 1 rfl).1,
   (C3_remove_amended dupState 0 1 rfl).2.1 0 (by decide),
   (C3_remove_amended dupState 0 1 rfl).2.2.1,
   (C3_remove_amended dupState 0 1 rfl).2.2.2⟩

/-! ## C4: removing an absent node -/

/-- A heap where composite 2 owns leaf 1 (parent reference 2) and the
other composite 0 is empty. -/
def parentedState : SState :=
  { nodes := [0, 1, 2],
    kind := fun n => n == 0 || n == 2,
    parent := fun n => if n == 1 then some 2 else none,
    children := fun n => if n == 2 then [1] else [] }

/-- C4 (counterexample): leaf 1 is not among composite 0's children, yet
`Remove` on composite 0 still executes `component->SetParent(nullptr)`:
leaf 1's parent reference — which pointed at its real container 2 — is
wiped to none, so the call is not a frame-preserving no-op. -/
theorem C4_remove_absent_counterexample :
    (1 ∉ parentedState.children 0) ∧
    GetParent parentedState 1 = some 2 ∧
    GetParent (Remove parentedState 0 1) 1 = none ∧
    GetParent (Remove parentedState 0 1) 1 ≠ GetParent parentedState 1 := by
  refine ⟨by decide, rfl, rfl, by decide⟩

/-- C4 (amended): removing a node `x` absent from a composite's child
sequence leaves every child sequence in the heap unchanged and signals
no error, but it still unconditionally resets `x`'s parent reference to
none; every other node's parent reference is untouched. -/
theorem C4_remove_absent_amended (s : SState) (p x : Nat)
    (hk : s.kind p = true) (hx : x ∉ s.children p) :
    (∀ q, (Remove s p x).children q = s.children q) ∧
    GetParent (Remove s p x) x = none ∧
    (∀ y, y ≠ x → GetParent (Remove s p x) y = GetParent s y) := by
  refine ⟨?_, ?_, ?_⟩
  · intro q
    by_cases hq : q = p
    · subst hq
      simp only [Remove, SetParent, hk, if_true]
      show (s.children q).filter (fun c => c != x) = s.children q
      apply List.filter_eq_self.mpr
      intro a ha
      simp only [bne_iff_ne, ne_eq]
      exact fun h => hx (h ▸ ha)
    · simp [Remove, SetParent, hk, hq]
  · simp [GetParent, Remove, SetParent, hk]
  · intro y hy
    simp [GetParent, Remove, SetParent, hk, hy]

/-- C4 (witness): the amended theorem at `parentedState`, removing the
absent leaf 1 from the empty composite 0. -/
theorem C4_remove_absent_witness :
    (Remove parentedState 0 1).children 0 = parentedState.children 0 ∧
    (Remove parentedState 0 1).children 2 = parentedState.children 2 ∧
    GetParent (Remove parentedState 0 1) 1 = none ∧
    GetParent (Remove parentedState 0 1) 2 = GetParent parentedState 2 :=
  ⟨(C4_remove_absent_amended parentedState 0 1 rfl (by decide)).1 0,
   (C4_remove_absent_amended parentedState 0 1 rfl (by decide)).1 2,
   (C4_remove_absent_amended parentedState 0 1 rfl (by decide)).2.1,
   (C4_remove_absent_amended parentedState 0 1 rfl (by decide)).2.2 2 (by decide)⟩

/-! ## C6: add establishes, remove clears, the parent link -/

/-- C6: immediately after `p.add(child)` on a composite `p`, `child`'s
`getParent()` returns `p` and `child` is the last entry of `p`'s child
sequence; immediately after `p.remove(child)`, `child`'s `getParent()`
returns none. -/
theorem C6_add_remove_parent (s : SState) (p x : Nat) (hk : s.kind p = true) :
    GetParent (Add s p x) x = some p ∧
    ((Add s p x).children p).getLast? = some x ∧
    GetParent (Remove s p x) x = none := by
  refine ⟨?_, ?_, ?_⟩
  · simp [GetParent, Add, SetParent, hk]
  · simp [Add, SetParent, hk, List.getLast?_concat]
  · simp [GetParent, Remove, SetParent, hk]

/-- C6 (witness): adding and removing node 3 on the composite 0 of
`pairState`. -/
theorem C6_add_remove_parent_witness :
    GetParent (Add pairState 0 3) 3 = some 0 ∧
    ((Add pairState 0 3).children 0).getLast? = some 3 ∧
    GetParent (Remove pairState 0 3) 3 = none :=
  C6_add_remove_parent pairState 0 3 rfl

/-! ## C7: add/remove on a Leaf are silent no-ops -/

/-- C7: `add`/`remove` on a Leaf receiver run the empty-bodied
base-class defaults `Component::Add`/`Component::Remove`: the heap —
every node's parent reference and child sequence, the argument's state
included — is left entirely unchanged, and no error is signalled. -/
theorem C7_leaf_noop (s : SState) (p x : Nat) (hk : s.kind p = false) :
    Add s p x = s ∧ Remove s p x = s := by
  constructor <;> simp [Add, Remove, hk]

/-- C7 (witness): calling `add`/`remove` on the leaf 1 of `pairState`. -/
theorem C7_leaf_noop_witness :
    Add pairState 1 0 = pairState ∧ Remove pairState 1 0 = pairState :=
  C7_leaf_noop pairState 1 0 rfl

/-! ## Field lemmas for Add and Remove -/

theorem Add_children (s : SState) (p x q : Nat) (hk : s.kind p = true) :
    (Add s p x).children q = if q = p then s.children p ++ [x] else s.children q := by
  simp [Add, SetParent, hk]

theorem Add_parent (s : SState) (p x y : Nat) (hk : s.kind p = true) :
    (Add s p x).parent y = if y = x then some p else s.parent y := by
  simp [Add, SetParent, hk]

theorem Add_nodes (s : SState) (p x : Nat) : (Add s p x).nodes = s.nodes := by
  by_cases hk : s.kind p = true <;> simp [Add, SetParent, hk]

theorem Remove_children (s : SState) (p x q : Nat) (hk : s.kind p = true) :
    (Remove s p x).children q
      = if q = p then (s.children p).filter (fun c => c != x) else s.children q := by
  simp [Remove, SetParent, hk]

theorem Remove_parent (s : SState) (p x y : Nat) (hk : s.kind p = true) :
    (Remove s p x).parent y = if y = x then none else s.parent y := by
  simp [Remove, SetParent, hk]

theorem Remove_nodes (s : SState) (p x : Nat) : (Remove s p x).nodes = s.nodes := by
  by_cases hk : s.kind p = true <;> simp [Remove, SetParent, hk]

/-! ## C5: the parent/child invariant over operation sequences -/

/-- Two composites (ids 0 and 1) and a leaf (id 2), freshly linked to
nothing, with zeroed memory. -/
def twoOwners : SState :=
  freshState [0, 1, 2] (fun n => n == 0 || n == 1) (fun _ => none)

/-- C5 (counterexample): adding the same leaf 2 to composite 0 and then
to composite 1 produces a reachable state in which leaf 2 still sits in
composite 0's child sequence while its parent reference points at
composite 1 — the invariant does not hold in every reachable state. -/
theorem C5_invariant_counterexample :
    2 ∈ (applyOps twoOwners [Op.add 0 2, Op.add 1 2]).children 0 ∧
    0 ∈ (applyOps twoOwners [Op.add 0 2, Op.add 1 2]).nodes ∧
    2 ∈ (applyOps twoOwners [Op.add 0 2, Op.add 1 2]).nodes ∧
    (applyOps twoOwners [Op.add 0 2, Op.add 1 2]).parent 2 = some 1 ∧
    ¬ ParentInv (applyOps twoOwners [Op.add 0 2, Op.add 1 2]) := by
  refine ⟨by decide, by decide, by decide, by decide, ?_⟩
  intro hinv
  exact absurd (hinv.1 0 (by decide) 2 (by decide)) (by decide)

/-- Side conditions under which one API call preserves the parent/child
invariant: only `add`/`remove` on composites, an added node must not
currently sit in any child sequence, and a removed node must sit in no
child sequence other than (possibly) the receiver's.  A raw `setParent`
call is never invariant-safe in general. -/
def OpOK (s : SState) : Op → Prop
  | .add p x =>
      p ∈ s.nodes ∧ x ∈ s.nodes ∧ s.kind p = true ∧ ∀ q ∈ s.nodes, x ∉ s.children q
  | .rem p x =>
      p ∈ s.nodes ∧ x ∈ s.nodes ∧ s.kind p = true ∧ ∀ q ∈ s.nodes, q ≠ p → x ∉ s.children q
  | .setp _ _ => False

/-- Every call of a sequence satisfies `OpOK` in the state it runs in. -/
def Disciplined : SState → List Op → Prop
  | _, [] => True
  | s, op :: ops => OpOK s op ∧ Disciplined (applyOp s op) ops

theorem ParentInv_applyOp (s : SState) (op : Op)
    (hinv : ParentInv s) (hok : OpOK s op) : ParentInv (applyOp s op) := by
  obtain ⟨h1, h2⟩ := hinv
  cases op with
  | setp x v => exact hok.elim
  | add p x =>
    obtain ⟨hp, hxn, hk, habs⟩ := hok
    show ParentInv (Add s p x)
    refine ⟨?_, ?_⟩
    · intro q hq y hy
      rw [Add_nodes] at hq
      rw [Add_children s p x q hk] at hy
      rw [Add_parent s p x y hk]
      by_cases hqp : q = p
      · subst hqp
        rw [if_pos rfl] at hy
        rcases List.mem_append.mp hy with hy' | hy'
        · have hyx : y ≠ x := fun h => habs q hq (h ▸ hy')
          rw [if_neg hyx]
          exact h1 q hq y hy'
        · have hyx : y = x := by simpa using hy'
          subst hyx
          rw [if_pos rfl]
      · rw [if_neg hqp] at hy
        have hyx : y ≠ x := fun h => habs q hq (h ▸ hy)
        rw [if_neg hyx]
        exact h1 q hq y hy
    · intro y hyn hall
      rw [Add_nodes] at hyn
      rw [Add_parent s p x y hk]
      by_cases hyx : y = x
      · exfalso
        have hmem := hall p (by rw [Add_nodes]; exact hp)
        rw [Add_children s p x p hk, if_pos rfl] at hmem
        exact hmem (List.mem_append.mpr (Or.inr (by simp [hyx])))
      · rw [if_neg hyx]
        apply h2 y hyn
        intro q hq
        have hmem := hall q (by rw [Add_nodes]; exact hq)
        rw [Add_children s p x q hk] at hmem
        by_cases hqp : q = p
        · subst hqp
          rw [if_pos rfl] at hmem
          exact fun h => hmem (List.mem_append.mpr (Or.inl h))
        · rw [if_neg hqp] at hmem
          exact hmem
  | rem p x =>
    obtain ⟨hp, hxn, hk, hother⟩ := hok
    show ParentInv (Remove s p x)
    refine ⟨?_, ?_⟩
    · intro q hq y hy
      rw [Remove_nodes] at hq
      rw [Remove_children s p x q hk] at hy
      rw [Remove_parent s p x y hk]
      by_cases hqp : q = p
      · subst hqp
        rw [if_pos rfl] at hy
        obtain ⟨hy', hy2⟩ := List.mem_filter.mp hy
        have hyx : y ≠ x := by simpa using hy2
        rw [if_neg hyx]
        exact h1 q hq y hy'
      · rw [if_neg hqp] at hy
        have hyx : y ≠ x := fun h => hother q hq hqp (h ▸ hy)
        rw [if_neg hyx]
        exact h1 q hq y hy
    · intro y hyn hall
      rw [Remove_nodes] at hyn
      rw [Remove_parent s p x y hk]
      by_cases hyx : y = x
      · rw [if_pos hyx]
      · rw [if_neg hyx]
        apply h2 y hyn
        intro q hq
        have hmem := hall q (by rw [Remove_nodes]; exact hq)
        rw [Remove_children s p x q hk] at hmem
        by_cases hqp : q = p
        · subst hqp
          rw [if_pos rfl] at hmem
          exact fun h => hmem (List.mem_filter.mpr ⟨h, by simpa using hyx⟩)
        · rw [if_neg hqp] at hmem
          exact hmem

theorem ParentInv_applyOps (s : SState) (ops : List Op)
    (hinv : ParentInv s) (hd : Disciplined s ops) : ParentInv (applyOps s ops) := by
  induction ops generalizing s with
  | nil => exact hinv
  | cons op ops ih =>
    obtain ⟨hok, hd'⟩ := hd
    exact ih (applyOp s op) (ParentInv_applyOp s op hinv hok) hd'

theorem ParentInv_fresh (s : SState) (hp : ∀ x, s.parent x = none)
    (hc : ∀ p, s.children p = []) : ParentInv s := by
  refine ⟨?_, ?_⟩
  · intro p _ x hx
    rw [hc p] at hx
    cases hx
  · intro x _ _
    exact hp x

/-- C5 (amended): the invariant — every node in some composite's child
sequence has its parent reference on that composite, every node in no
child sequence has parent reference none — holds in every state reached
from zero-initialized fresh nodes by a sequence of `add`/`remove` calls
in which each added node is not currently in any child sequence and each
removed node sits in no child sequence but (possibly) the receiver's.
It does not survive arbitrary sequences (see the counterexample): a
second `add` of the same node, a `remove` addressed to a non-container,
or a raw `setParent` breaks it. -/
theorem C5_invariant_amended (s0 : SState) (ops : List Op)
    (hp : ∀ x, s0.parent x = none) (hc : ∀ p, s0.children p = [])
    (hd : Disciplined s0 ops) :
    ParentInv (applyOps s0 ops) :=
  ParentInv_applyOps s0 ops (ParentInv_fresh s0 hp hc) hd

/-- C5 (witness): the amended theorem on the run that adds leaf 2 to
composite 0 and removes it again. -/
theorem C5_invariant_witness :
    ParentInv (applyOps twoOwners [Op.add 0 2, Op.rem 0 2]) :=
  C5_invariant_amended twoOwners [Op.add 0 2, Op.rem 0 2]
    (fun _ => rfl) (fun _ => rfl)
    ⟨⟨by decide, by decide, by decide, by decide⟩,
     ⟨by decide, by decide, by decide, by decide⟩, trivial⟩

/-! ## C8: describe terminates on acyclic structures -/

/-- One parent-to-child step in the heap: `y` is a child of `x`. -/
def ChildStep (s : SState) (x y : Nat) : Prop :=
  y ∈ s.children x

theorem Operation_isSome_of_bounded (s : SState) :
    ∀ (n : Nat) (L : List Nat) (x : Nat),
      (∀ y, Relation.TransGen (ChildStep s) x y → y ∈ L) →
      (∀ z, ¬ Relation.TransGen (ChildStep s) z z) →
      L.length < n → (Operation n s x).isSome := by
  intro n
  induction n with
  | zero => exact fun L x _ _ h => absurd h (Nat.not_lt_zero _)
  | succ n ih =>
    intro L x hdesc hacyc hlen
    rw [Operation]
    by_cases hk : s.kind x = true
    · simp only [hk, if_true]
      have hrend :
          (renderChildren (Operation n s) (s.children x).getLast? (s.children x)).isSome := by
        apply renderChildren_isSome
        intro c hc
        have hcL : c ∈ L := hdesc c (Relation.TransGen.single hc)
        have hpos : 0 < L.length := List.length_pos_of_mem hcL
        have herase : (L.erase c).length = L.length - 1 := List.length_erase_of_mem hcL
        apply ih (L.erase c) c
        · intro y hy
          have hyL : y ∈ L := hdesc y (Relation.TransGen.head hc hy)
          have hyc : y ≠ c := fun h => hacyc c (h ▸ hy)
          exact (List.mem_erase_of_ne hyc).mpr hyL
        · exact hacyc
        · omega
      obtain ⟨inner, hinner⟩ := Option.isSome_iff_exists.mp hrend
      rw [hinner]
      rfl
    · simp [hk]

/-- C8: on any heap whose child graph is acyclic (no node is its own
transitive descendant), `describe()` run on `x` with a recursion budget
of one more than the number of nodes below `x` (any list `L` containing
all of `x`'s descendants) completes — the traversal is bounded by the
number of nodes in the tree. -/
theorem C8_describe_terminates (s : SState) (x : Nat) (L : List Nat)
    (hacyc : ∀ z, ¬ Relation.TransGen (ChildStep s) z z)
    (hdesc : ∀ y, Relation.TransGen (ChildStep s) x y → y ∈ L) :
    (Operation (L.length + 1) s x).isSome :=
  Operation_isSome_of_bounded s (L.length + 1) L x hdesc hacyc (Nat.lt_succ_self _)

theorem transGen_rank_lt (s : SState) (rk : Nat → Nat)
    (hstep : ∀ a b, ChildStep s a b → rk b < rk a) :
    ∀ z y, Relation.TransGen (ChildStep s) z y → rk y < rk z := by
  intro z y h
  induction h with
  | single h => exact hstep _ _ h
  | tail _ h ih => exact lt_trans (hstep _ _ h) ih

theorem transGen_mem_of_closed (s : SState) (L : List Nat)
    (hcl : ∀ a b, ChildStep s a b → b ∈ L) :
    ∀ x y, Relation.TransGen (ChildStep s) x y → y ∈ L := by
  intro x y h
  induction h with
  | single h => exact hcl _ _ h
  | tail _ h _ => exact hcl _ _ h

theorem pairState_step (a b : Nat) (h : ChildStep pairState a b) :
    a = 0 ∧ (b = 1 ∨ b = 2) := by
  unfold ChildStep pairState at h
  by_cases ha : a = 0
  · subst ha
    simp at h
    exact ⟨rfl, h⟩
  · exfalso
    simp [ha] at h

theorem pairState_acyclic : ∀ z, ¬ Relation.TransGen (ChildStep pairState) z z := by
  intro z h
  have hlt := transGen_rank_lt pairState (fun n => if n = 0 then 1 else 0)
    (fun a b hab => by
      obtain ⟨ha, hb⟩ := pairState_step a b hab
      subst ha
      rcases hb with hb | hb <;> subst hb <;> simp)
    z z h
  exact lt_irrefl _ hlt

/-- C8 (witness): the theorem on `pairState` from the composite 0, with
`L = [1, 2]` listing its two descendants. -/
theorem C8_describe_terminates_witness :
    (Operation ([1, 2].length + 1) pairState 0).isSome :=
  C8_describe_terminates pairState 0 [1, 2] pairState_acyclic
    (transGen_mem_of_closed pairState [1, 2]
      (fun a b hab => by
        rcases (pairState_step a b hab).2 with h | h <;> subst h <;> decide)
      0)

/-! ## C9: GetParent on a freshly constructed node -/

/-- C9: `Component::parent_` has no initializer and no constructor of
`Component`, `Leaf` or `Composite` assigns it, so on a freshly
constructed node `GetParent` returns the indeterminate contents the
allocated memory happened to hold (here `some 7`), not the null
reference — reading it before any `SetParent`/`Add` is undefined
behavior in the C++ source, and nothing guarantees a `none` result. -/
theorem C9_uninitialized_parent :
    GetParent (freshState [0] (fun _ => false) (fun _ => some 7)) 0 = some 7 ∧
    GetParent (freshState [0] (fun _ => false) (fun _ => some 7)) 0 ≠ none :=
  ⟨rfl, by decide⟩

end Linker
